import Mathlib

/-!
Verification of the mainthread control plane (thread lifecycle and event
engine) against its specification.

The definitions below are a shallow embedding of the Python source:

* `EventStore` / `addEvent` embed the SQLite `events` table of
  `src/mainthread/db.py` (schema lines 103-112, `add_event` lines 968-984):
  `seq_id INTEGER PRIMARY KEY AUTOINCREMENT` is a single table-wide counter,
  so the model keeps one `nextSeq` for the whole store.
* `getThreadDepth` embeds `db.get_thread_depth` (lines 291-316).
* `determineStatus` embeds `agents/core.py determine_status` (lines 836-868).
* `rlStepD` / `rlRunD` embed `agents/registry.py
  ServiceRegistry.check_rate_limit` (lines 100-121) including the per-source
  keying of `_message_timestamps`.
* `installWaitSlot` embeds the slot-installation step of
  `agents/registry.py ServiceRegistry.wait_for_answer` (lines 82-98).
* `Proc` / `processMsg` embed `server.py MessageStreamProcessor`
  (lines 391-608).
* `runRetryGo` embeds `server.py run_agent_with_retry` (lines 611-731).
* `parentSubthreadStatusEvents` embeds the parent-notification wiring of
  `server.py` (`notify_parent_of_subthread_completion`,
  `run_thread_for_agent`, `_notify_parent_on_subthread_error`,
  `broadcast_status_signal_to_parent`) together with the SignalStatus tool
  body in `agents/tools/signal_status.py`.

Machine integers are modelled as `Nat`/`Int`; wall-clock timestamps
(`time.time()` floats) are modelled as `Rat`.
-/

set_option maxRecDepth 8000

namespace Mainthread

/-! ### Store: the `events` table (db.py)

`add_event` inserts into a table whose primary key is a single
`AUTOINCREMENT` column shared by all threads; the returned `lastrowid` is
that column's value.  SQLite assigns `1, 2, 3, ...` in insertion order across
the whole table. -/

structure EventRow where
  seqId : Nat
  threadId : String
  eventType : String
  data : String
deriving DecidableEq

structure EventStore where
  nextSeq : Nat
  rows : List EventRow
deriving DecidableEq

def EventStore.empty : EventStore := ⟨1, []⟩

/-- `db.add_event(thread_id, event_type, data)`: insert a row, return the
auto-incremented `seq_id` (the table-wide counter, not a per-thread one). -/
def addEvent (st : EventStore) (threadId eventType data : String) : Nat × EventStore :=
  (st.nextSeq, ⟨st.nextSeq + 1, st.rows ++ [⟨st.nextSeq, threadId, eventType, data⟩]⟩)

/-- Run a batch of `add_event` calls in order. -/
def appendAll (st : EventStore) : List (String × String × String) → EventStore
  | [] => st
  | (tid, ty, d) :: rest => appendAll (addEvent st tid ty d).2 rest

/-- The sequence IDs of one thread's events, in insertion order
(`SELECT seq_id FROM events WHERE thread_id = ? ORDER BY seq_id`). -/
def threadSeqs (st : EventStore) (tid : String) : List Nat :=
  (st.rows.filter (fun r => r.threadId == tid)).map (fun r => r.seqId)

/-- All sequence IDs in the table, in insertion order. -/
def allSeqs (st : EventStore) : List Nat := st.rows.map (fun r => r.seqId)

/-! ### Thread depth (db.py `get_thread_depth`)

The parent chain is walked with `depth += 1` per hop and a guard
`if depth > 10: break` placed after the increment, so a cycle (or an
over-deep chain) makes the function return `11` — there is no `-1` path.
A thread table is modelled as a map from id to `none` (row missing) or
`some parentId?`. -/

def ThreadTable : Type := String → Option (Option String)

/-- One iteration of the `while True` loop of `get_thread_depth`.  `fuel`
only bounds the recursion; the source loop is bounded by its own
`depth > 10` guard, which fires before fuel `12` can run out. -/
def getThreadDepthGo (threads : ThreadTable) : String → Int → Nat → Int
  | _, depth, 0 => depth
  | currentId, depth, fuel + 1 =>
    match threads currentId with
    | none => depth
    | some none => depth
    | some (some pid) =>
      if depth + 1 > 10 then depth + 1
      else getThreadDepthGo threads pid (depth + 1) fuel

/-- `db.get_thread_depth(thread_id)`. -/
def getThreadDepth (threads : ThreadTable) (threadId : String) : Int :=
  getThreadDepthGo threads threadId 0 12

/-- The parent chain from `id` reaches a root (missing row or null parent)
in exactly `n` hops. -/
inductive ReachesRoot (threads : ThreadTable) : String → Nat → Prop
  | here (id : String) (h : threads id = none ∨ threads id = some none) :
      ReachesRoot threads id 0
  | step (id pid : String) (n : Nat) (h : threads id = some (some pid))
      (hp : ReachesRoot threads pid n) : ReachesRoot threads id (n + 1)

/-! ### Final-status classification (agents/core.py `determine_status`) -/

/-- A recorded tool call: `collected_tool_calls` entries expose
`call.get("name", "")` and `call.get("input", {}).get("status", "")`. -/
structure ToolCall where
  name : String
  status : String
deriving DecidableEq

/-- Python's `name in ("SignalStatus", "mcp__subthread__SignalStatus")`. -/
def isSignalStatusName (n : String) : Bool :=
  n == "SignalStatus" || n == "mcp__subthread__SignalStatus"

/-- Substring test on character lists (Python's `needle in hay`). -/
def hasSeq : List Char → List Char → Bool
  | [], needle => needle.isEmpty
  | c :: rest, needle => needle.isPrefixOf (c :: rest) || hasSeq rest needle

/-- Python's `needle in hay` for strings. -/
def strContains (hay needle : String) : Bool :=
  hasSeq hay.toList needle.toList

/-- The `for call in tool_calls` loop of `determine_status`: the first
SignalStatus-named call whose status is `blocked` or `done` returns; calls
with any other status fall through to the next iteration. -/
def signalStatusOf : List ToolCall → Option String
  | [] => none
  | c :: rest =>
    if isSignalStatusName c.name then
      if c.status == "blocked" then some "needs_attention"
      else if c.status == "done" then some "done"
      else signalStatusOf rest
    else signalStatusOf rest

/-- `agents/core.py determine_status(content, tool_calls)`. -/
def determineStatus (content : String) (toolCalls : List ToolCall) : String :=
  match signalStatusOf toolCalls with
  | some s => s
  | none =>
    if strContains content "[BLOCKED]" then "needs_attention"
    else if strContains content "[DONE]" then "done"
    else "active"

/-- The claim's rule, taken at its words: `needs-attention` whenever some
SignalStatus call carries `blocked`, else `done` whenever some carries
`done`, else the text markers. -/
def determineStatusClaim (content : String) (toolCalls : List ToolCall) : String :=
  if toolCalls.any (fun c => isSignalStatusName c.name && c.status == "blocked") then
    "needs_attention"
  else if toolCalls.any (fun c => isSignalStatusName c.name && c.status == "done") then
    "done"
  else if strContains content "[BLOCKED]" then "needs_attention"
  else if strContains content "[DONE]" then "done"
  else "active"

/-- Amended rule: the first SignalStatus call carrying a recognised status
decides, mapped `blocked ↦ needs_attention`, `done ↦ done`; only if no such
call exists do the text markers apply. -/
def determineStatusFirstSignal (content : String) (toolCalls : List ToolCall) : String :=
  match toolCalls.find? (fun c =>
      isSignalStatusName c.name && (c.status == "blocked" || c.status == "done")) with
  | some c => if c.status == "blocked" then "needs_attention" else "done"
  | none =>
    if strContains content "[BLOCKED]" then "needs_attention"
    else if strContains content "[DONE]" then "done"
    else "active"

/-! ### SendToThread rate limit (agents/registry.py `check_rate_limit`)

`_message_timestamps` is a dict keyed by source thread id; each call prunes
the caller's list to entries with `now - ts < 60`, rejects when five remain,
and otherwise records `now` and accepts. -/

def messageRateLimit : Nat := 5

def messageWindow : Rat := 60

/-- Prune `now - ts < self.message_window`. -/
def pruneStamps (now : Rat) (l : List Rat) : List Rat :=
  l.filter (fun ts => decide (now - ts < messageWindow))

/-- `check_rate_limit` for one source key: returns the updated per-source
dict, the `allowed` flag and the message of the returned pair. -/
def rlStepD (st : String → List Rat) (src : String) (now : Rat) :
    (String → List Rat) × Bool × String :=
  let kept := pruneStamps now (st src)
  if messageRateLimit ≤ kept.length then
    (fun s => if s = src then kept else st s, false,
      "Rate limit exceeded: max 5 messages per minute")
  else
    (fun s => if s = src then kept ++ [now] else st s, true, "")

/-- Run a trace of `(source, time)` calls; return the accepted ones. -/
def rlRunD (st : String → List Rat) : List (String × Rat) → List (String × Rat)
  | [] => []
  | (src, t) :: rest =>
    let step := rlStepD st src t
    (if step.2.1 then [(src, t)] else []) ++ rlRunD step.1 rest

/-- Single-source version of `rlStepD` (the dict touches only one key). -/
def rlStep (l : List Rat) (now : Rat) : List Rat × Bool :=
  let kept := pruneStamps now l
  if messageRateLimit ≤ kept.length then (kept, false) else (kept ++ [now], true)

/-- Single-source run: the accepted times. -/
def rlRun (l : List Rat) : List Rat → List Rat
  | [] => []
  | t :: rest =>
    let step := rlStep l t
    (if step.2 then [t] else []) ++ rlRun step.1 rest

/-- The accepted calls of one source inside a mixed trace. -/
def acceptedFor (s : String) (trace : List (String × Rat)) : List Rat :=
  ((rlRunD (fun _ => []) trace).filter (fun p => p.1 == s)).map Prod.snd

/-- The call times of one source inside a mixed trace. -/
def timesFor (s : String) (trace : List (String × Rat)) : List Rat :=
  (trace.filter (fun p => p.1 == s)).map Prod.snd

/-! ### Interactive-prompt rendezvous (agents/registry.py `wait_for_answer`)

`wait_for_answer` begins with
`self._pending_questions[thread_id] = (event, None)` under the lock: the
assignment is unconditional, so an existing slot for the thread is replaced;
there is no already-pending error path anywhere in the function. -/

/-- A pending-question slot `(asyncio.Event, answers)`. -/
structure QSlot where
  fired : Bool
  answers : Option (List (String × String))
deriving DecidableEq

def PendingMap : Type := String → Option QSlot

def freshSlot : QSlot := ⟨false, none⟩

/-- The slot-installation step of `wait_for_answer`: unconditional
dict assignment. -/
def installWaitSlot (m : PendingMap) (tid : String) : PendingMap :=
  fun s => if s = tid then some freshSlot else m s

/-- The same step with an explicit error channel, to make the claimed
`already-pending` failure statable: the source never takes an error path,
so the result is always `ok`. -/
def installWaitSlotE (m : PendingMap) (tid : String) : Except String PendingMap :=
  Except.ok (installWaitSlot m tid)

/-- `set_pending_answer`: fill and fire an existing slot, drop otherwise. -/
def setPendingAnswer (m : PendingMap) (tid : String)
    (answers : List (String × String)) : PendingMap :=
  match m tid with
  | some _ => fun s => if s = tid then some ⟨true, some answers⟩ else m s
  | none => m

/-! ### Streaming message processor (server.py `MessageStreamProcessor`)

`AMsg` is the inbound `AgentMessage` stream (type + content + metadata
fields actually read by `process_message`); `CBlock` is a content block of
the in-flight assistant message; `OEvent` is a `broadcast_to_thread`
payload.  Side effects that do not touch the processor state — the
ephemeral-thread record created for `Task` tools, the cumulative
`update_thread_usage` write, and the `<!--SPAWN_DATA:uuid-->` thread-id
extraction on tool results — are outside this embedding. -/

inductive AMsg
  | text (content : String)
  | thinking (content : String) (signature : Option String)
  | toolUse (id : Option String) (name : Option String) (input : Option String)
  | toolInput (id : Option String) (input : Option String)
  | toolResult (toolUseId : Option String) (isError : Bool) (content : Option String)
  | errorMsg (content : String)
  | usage (inputTokens outputTokens : Nat) (cost : Rat)
  | statusMsg (content : String) (sessionId : Option String)
deriving DecidableEq

inductive CBlock
  | text (content : String)
  | thinking (content : String) (signature : Option String)
  | toolUse (name : Option String) (input : Option String) (id : Option String)
      (isComplete : Bool) (isError : Bool)
deriving DecidableEq

inductive OEvent
  | textDelta (content : String)
  | thinkingEv (content : String) (signature : Option String)
  | toolUseEv (id : Option String) (name : Option String) (input : Option String)
  | subagentStartEv (threadId : Option String) (name : Option String)
  | toolInputEv (id : Option String) (input : Option String)
  | toolResultEv (toolUseId : Option String) (isError : Option Bool) (content : Option String)
  | errorEv (content : String)
  | usageEv (inputTokens outputTokens : Nat) (cost : Rat)
deriving DecidableEq

/-- Python truthiness of an optional string (`None` and `""` are falsy). -/
def truthyS : Option String → Bool
  | none => false
  | some s => !(s == "")

structure Proc where
  collectedContent : List String
  collectedBlocks : List CBlock
  pendingToolIds : List String
  finalStatus : String
  finalSessionId : Option String
deriving DecidableEq

def Proc.init : Proc := ⟨[], [], [], "active", none⟩

/-- The assistant message is created with placeholder content
(`add_message(thread_id, "assistant", "[streaming...]")`). -/
def initialAssistantContent : String := "[streaming...]"

/-- text branch: extend a trailing text block, else append a new one. -/
def appendTextBlock (bs : List CBlock) (c : String) : List CBlock :=
  match bs.getLast? with
  | some (CBlock.text t) => bs.dropLast ++ [CBlock.text (t ++ c)]
  | _ => bs ++ [CBlock.text c]

/-- thinking branch: coalesce into a trailing thinking block (concat
content, truthy signature wins), else append a new one. -/
def appendThinkingBlock (bs : List CBlock) (c : String) (sig : Option String) : List CBlock :=
  match bs.getLast? with
  | some (CBlock.thinking t s0) =>
    bs.dropLast ++ [CBlock.thinking (t ++ c) (if truthyS sig then sig else s0)]
  | _ => bs ++ [CBlock.thinking c sig]

/-- Mark the first tool-use block with the given id complete (and record an
error flag); used by the tool_result branch and `_complete_pending_tool`. -/
def markFirstComplete : List CBlock → String → Bool → List CBlock
  | [], _, _ => []
  | CBlock.toolUse n i id c e :: rest, tid, err =>
    if id = some tid then CBlock.toolUse n i id true (e || err) :: rest
    else CBlock.toolUse n i id c e :: markFirstComplete rest tid err
  | b :: rest, tid, err => b :: markFirstComplete rest tid err

/-- tool_input branch: overwrite the input of the first matching block. -/
def setFirstInput : List CBlock → String → Option String → List CBlock
  | [], _, _ => []
  | CBlock.toolUse n i id c e :: rest, tid, inp =>
    if id = some tid then CBlock.toolUse n inp id c e :: rest
    else CBlock.toolUse n i id c e :: setFirstInput rest tid inp
  | b :: rest, tid, inp => b :: setFirstInput rest tid inp

/-- `MessageStreamProcessor.process_message`, one inbound event. -/
def processMsg (p : Proc) : AMsg → Proc × List OEvent
  | AMsg.text c =>
    ({ p with collectedContent := p.collectedContent ++ [c],
              collectedBlocks := appendTextBlock p.collectedBlocks c },
      [OEvent.textDelta c])
  | AMsg.thinking c sig =>
    ({ p with collectedBlocks := appendThinkingBlock p.collectedBlocks c sig },
      [OEvent.thinkingEv c sig])
  | AMsg.toolUse id name input =>
    let pending := match id with
      | some s => if s == "" then p.pendingToolIds else p.pendingToolIds ++ [s]
      | none => p.pendingToolIds
    let bs := p.collectedBlocks ++ [CBlock.toolUse name input id false false]
    let evs := if name == some "Task" && truthyS id then
        [OEvent.toolUseEv id name input, OEvent.subagentStartEv id name]
      else [OEvent.toolUseEv id name input]
    ({ p with pendingToolIds := pending, collectedBlocks := bs }, evs)
  | AMsg.toolInput id input =>
    if truthyS id && truthyS input then
      match id with
      | some s =>
        ({ p with collectedBlocks := setFirstInput p.collectedBlocks s input },
          [OEvent.toolInputEv id input])
      | none => (p, [])
    else (p, [])
  | AMsg.toolResult tid0 isErr content =>
    let resolved : Option String × List String :=
      if truthyS tid0 then
        match tid0 with
        | some s =>
          if p.pendingToolIds.contains s then (tid0, p.pendingToolIds.erase s)
          else (tid0, p.pendingToolIds)
        | none => (tid0, p.pendingToolIds)
      else
        match p.pendingToolIds with
        | [] => (tid0, [])
        | h :: t => (some h, t)
    let bs := match resolved.1 with
      | some s => if s == "" then p.collectedBlocks else markFirstComplete p.collectedBlocks s isErr
      | none => p.collectedBlocks
    let contentOut := match content with
      | some c => if c == "" then none else some c
      | none => none
    ({ p with collectedBlocks := bs, pendingToolIds := resolved.2 },
      [OEvent.toolResultEv resolved.1 (some isErr) contentOut])
  | AMsg.errorMsg c => (p, [OEvent.errorEv c])
  | AMsg.usage i o cost => (p, [OEvent.usageEv i o cost])
  | AMsg.statusMsg c sid =>
    ({ p with finalStatus := c, finalSessionId := sid }, [])

/-- Process a whole inbound stream, collecting broadcast events. -/
def processAll (p : Proc) : List AMsg → Proc × List OEvent
  | [] => (p, [])
  | m :: rest =>
    let step := processMsg p m
    let tail := processAll step.1 rest
    (tail.1, step.2 ++ tail.2)

/-- `finalize`: drain the pending-tool FIFO, one `_complete_pending_tool`
per entry (mark the matching block complete, broadcast a bare
`tool_result{tool_use_id}`). -/
def finalizeGo : List String → List CBlock → List CBlock × List OEvent
  | [], bs => (bs, [])
  | t :: rest, bs =>
    let bs1 := markFirstComplete bs t false
    let tail := finalizeGo rest bs1
    (tail.1, OEvent.toolResultEv (some t) none none :: tail.2)

def finalizeProc (p : Proc) : Proc × List OEvent :=
  let fin := finalizeGo p.pendingToolIds p.collectedBlocks
  ({ p with collectedBlocks := fin.1, pendingToolIds := [] }, fin.2)

/-- `get_full_content`: `"".join(self.collected_content) or
"No response generated"`. -/
def getFullContent (p : Proc) : String :=
  let s := String.join p.collectedContent
  if s == "" then "No response generated" else s

/-- Is a block an uncompleted tool-use block? -/
def isIncompleteTool : CBlock → Bool
  | CBlock.toolUse _ _ _ c _ => !c
  | _ => false

/-- The ids of all tool-use blocks, in order. -/
def toolIds (bs : List CBlock) : List (Option String) :=
  bs.filterMap (fun b => match b with
    | CBlock.toolUse _ _ id _ _ => some id
    | _ => none)

/-- The ids of the uncompleted tool-use blocks, in order. -/
def incompleteIds (bs : List CBlock) : List (Option String) :=
  bs.filterMap (fun b => match b with
    | CBlock.toolUse _ _ id false _ => some id
    | _ => none)

/-- The ids carried by the tool_use events of an inbound stream. -/
def toolUseIdsOf (msgs : List AMsg) : List (Option String) :=
  msgs.filterMap (fun m => match m with
    | AMsg.toolUse id _ _ => some id
    | _ => none)

/-! ### Retry loop (server.py `run_agent_with_retry`)

Each pass of `for attempt in range(MAX_AGENT_RETRIES + 1)` constructs a
fresh `MessageStreamProcessor` — which inserts a fresh placeholder
assistant message — and the exception handler persists the partial
aggregate into that attempt's own message.  The model records, per
persisted DB message, its role and final content, plus the effective
prompt/images of each attempt and the sleeps taken. -/

def MAX_AGENT_RETRIES : Nat := 2

def RETRY_DELAY_SECONDS : Nat := 3

def continuationMessage : String :=
  "Your previous execution was interrupted. Please continue where you left off and complete the task."

/-- The system note persisted before a retry (f-string at lines 653-656). -/
def retryNote (lastError : String) (attempt : Nat) : String :=
  "[system] Previous execution was interrupted (" ++ lastError ++
    "). Automatically retrying with session resumption (attempt " ++
    toString (attempt + 1) ++ ")."

inductive DriverOutcome
  | ok
  | err (e : String)
  | timedOut
  | cancelled
deriving DecidableEq

/-- One driver attempt: the events yielded before the stream ends with the
given outcome. -/
structure AttemptRun where
  events : List AMsg
  outcome : DriverOutcome

structure RetryTrace where
  promptsUsed : List (String × Bool)
  sleeps : List Nat
  dbMessages : List (String × String)
deriving DecidableEq

inductive RetryResult
  | success (p : Proc) (t : RetryTrace)
  | raisedError (e : String) (t : RetryTrace)
  | raisedTimeout (t : RetryTrace)
  | raisedCancelled (t : RetryTrace)
deriving DecidableEq

/-- Content of the attempt's assistant message after its per-event saves
(still the placeholder when no event arrived). -/
def perEventSavedContent (events : List AMsg) : String :=
  if events.isEmpty then initialAssistantContent
  else getFullContent (processAll Proc.init events).1

/-- The body of `run_agent_with_retry`'s attempt loop.  `fuel` equals the
remaining passes of `range(MAX_AGENT_RETRIES + 1)`; the `fuel = 0` case is
the unreachable `RuntimeError` after the loop. -/
def runRetryGo (driver : Nat → AttemptRun) (userMsg : String) (hasImages : Bool) :
    Nat → Nat → String → RetryTrace → RetryResult
  | _, 0, lastError, tr => RetryResult.raisedError lastError tr
  | attempt, fuel + 1, lastError, tr =>
    let tr1 := if attempt = 0 then tr else
      { tr with sleeps := tr.sleeps ++ [RETRY_DELAY_SECONDS],
                dbMessages := tr.dbMessages ++ [("system", retryNote lastError attempt)] }
    let effMsg := if attempt = 0 then userMsg else continuationMessage
    let effImages := if attempt = 0 then hasImages else false
    let run := driver attempt
    let p := (processAll Proc.init run.events).1
    let tr2 := { tr1 with promptsUsed := tr1.promptsUsed ++ [(effMsg, effImages)] }
    match run.outcome with
    | DriverOutcome.ok =>
      let pf := (finalizeProc p).1
      RetryResult.success pf
        { tr2 with dbMessages := tr2.dbMessages ++ [("assistant", getFullContent pf)] }
    | DriverOutcome.err e =>
      let tr3 := { tr2 with dbMessages := tr2.dbMessages ++ [("assistant", getFullContent p)] }
      if attempt < MAX_AGENT_RETRIES then
        runRetryGo driver userMsg hasImages (attempt + 1) fuel e tr3
      else RetryResult.raisedError e tr3
    | DriverOutcome.timedOut =>
      RetryResult.raisedTimeout
        { tr2 with dbMessages := tr2.dbMessages ++ [("assistant", getFullContent p)] }
    | DriverOutcome.cancelled =>
      RetryResult.raisedCancelled
        { tr2 with dbMessages := tr2.dbMessages ++ [("assistant", perEventSavedContent run.events)] }

def runAgentWithRetry (driver : Nat → AttemptRun) (userMsg : String) (hasImages : Bool) :
    RetryResult :=
  runRetryGo driver userMsg hasImages 0 (MAX_AGENT_RETRIES + 1) "" ⟨[], [], []⟩

def RetryResult.trace : RetryResult → RetryTrace
  | RetryResult.success _ t => t
  | RetryResult.raisedError _ t => t
  | RetryResult.raisedTimeout t => t
  | RetryResult.raisedCancelled t => t

/-- The content of the last assistant message persisted by a run. -/
def finalAssistantContent (r : RetryResult) : Option String :=
  ((r.trace.dbMessages.filter (fun m => m.1 == "assistant")).map Prod.snd).getLast?

/-! ### Parent notification on sub-thread termination (server.py)

`subthread_status` events reaching the parent come from exactly two places:
`broadcast_status_signal_to_parent` (one per successful SignalStatus tool
call with a valid status) and, at termination of `run_thread_for_agent`,
either `notify_parent_of_subthread_completion` (success path; broadcasts
only when `final_status == "active"`) or `_notify_parent_on_subthread_error`
(timeout and retry-exhausted error paths).  The `asyncio.CancelledError`
branch broadcasts `stopped` on the child and nothing to the parent. -/

inductive ChildOutcome
  | completed
  | cancelled
  | timedOut
  | failed
deriving DecidableEq

/-- A SignalStatus tool execution broadcasts to the parent iff its status
argument is `done` or `blocked` (`signal_status.py` validates, then calls
`broadcast_status_signal`). -/
def validSignal (c : ToolCall) : Bool :=
  isSignalStatusName c.name && (c.status == "done" || c.status == "blocked")

def signalBroadcastCount (calls : List ToolCall) : Nat :=
  (calls.filter validSignal).length

/-- `subthread_status` events sent at termination of the child's run. -/
def escalationCount (o : ChildOutcome) (text : String) (calls : List ToolCall) : Nat :=
  match o with
  | ChildOutcome.completed => if determineStatus text calls == "active" then 1 else 0
  | ChildOutcome.cancelled => 0
  | ChildOutcome.timedOut => 1
  | ChildOutcome.failed => 1

/-- Total `subthread_status` events the parent receives for one child run. -/
def parentSubthreadStatusEvents (o : ChildOutcome) (text : String)
    (calls : List ToolCall) : Nat :=
  signalBroadcastCount calls + escalationCount o text calls

/-- Does the text carry either literal status marker? -/
def hasStatusMarker (text : String) : Bool :=
  strContains text "[BLOCKED]" || strContains text "[DONE]"

/-! ## Lemmas about the event store -/

lemma appendAll_seqIds (trace : List (String × String × String)) :
    ∀ st : EventStore, (appendAll st trace).rows.map (fun r => r.seqId) =
      st.rows.map (fun r => r.seqId) ++ List.range' st.nextSeq trace.length := by
  induction trace with
  | nil => intro st; simp [appendAll]
  | cons hd rest ih =>
    intro st
    obtain ⟨tid, ty, d⟩ := hd
    rw [show appendAll st ((tid, ty, d) :: rest) = appendAll (addEvent st tid ty d).2 rest
      from rfl]
    rw [ih]
    simp only [addEvent, List.map_append, List.map_cons, List.map_nil, List.length_cons]
    rw [List.range'_succ]
    simp [List.append_assoc]

lemma appendAll_rows_pairwise (trace : List (String × String × String)) :
    List.Pairwise (fun r s : EventRow => r.seqId < s.seqId)
      (appendAll EventStore.empty trace).rows := by
  rw [← List.pairwise_map (f := fun r : EventRow => r.seqId)]
  rw [appendAll_seqIds trace EventStore.empty]
  simpa [EventStore.empty] using List.pairwise_lt_range' 1 trace.length

/-! ## Lemmas about `get_thread_depth` -/

lemma getThreadDepthGo_reaches (threads : ThreadTable) {id : String} {n : Nat}
    (h : ReachesRoot threads id n) :
    ∀ (depth : Int) (fuel : Nat), depth + n ≤ 10 → n < fuel →
      getThreadDepthGo threads id depth fuel = depth + n := by
  induction h with
  | here id h =>
    intro depth fuel _ hfuel
    cases fuel with
    | zero => omega
    | succ f =>
      rcases h with h | h <;> simp [getThreadDepthGo, h]
  | step id pid n h hp ih =>
    intro depth fuel hle hfuel
    cases fuel with
    | zero => omega
    | succ f =>
      have hng : ¬ depth + 1 > 10 := by push_cast at hle; omega
      have hrec := ih (depth + 1) f (by push_cast at hle ⊢; omega) (by omega)
      simp only [getThreadDepthGo, h, if_neg hng, hrec]
      push_cast
      ring

lemma getThreadDepthGo_bounds (threads : ThreadTable) :
    ∀ (fuel : Nat) (id : String) (depth : Int), 0 ≤ depth → depth ≤ 10 →
      0 ≤ getThreadDepthGo threads id depth fuel ∧
        getThreadDepthGo threads id depth fuel ≤ 11 := by
  intro fuel
  induction fuel with
  | zero => intro id depth h0 h10; simp [getThreadDepthGo]; omega
  | succ f ih =>
    intro id depth h0 h10
    simp only [getThreadDepthGo]
    cases hth : threads id with
    | none => simp [hth]; omega
    | some par =>
      cases par with
      | none => simp [hth]; omega
      | some pid =>
        by_cases hg : depth + 1 > 10
        · simp [hth, hg]; omega
        · simpa [hth, hg] using ih pid (depth + 1) (by omega) (by omega)

/-! ## Lemmas about `determine_status` -/

lemma signalStatusOf_eq_find (calls : List ToolCall) :
    signalStatusOf calls =
      (calls.find? (fun c =>
          isSignalStatusName c.name && (c.status == "blocked" || c.status == "done"))).map
        (fun c => if c.status == "blocked" then "needs_attention" else "done") := by
  induction calls with
  | nil => rfl
  | cons c rest ih =>
    cases hname : isSignalStatusName c.name with
    | false => simp [signalStatusOf, hname, List.find?, ih]
    | true =>
      cases hb : (c.status == "blocked") with
      | true =>
        have hb2 : c.status = "blocked" := by simpa using hb
        simp [signalStatusOf, hname, hb, hb2, List.find?]
      | false =>
        have hb2 : ¬ c.status = "blocked" := by simpa using hb
        cases hd : (c.status == "done") with
        | true => simp [signalStatusOf, hname, hb, hb2, hd, List.find?]
        | false => simp [signalStatusOf, hname, hb, hd, List.find?, ih]

lemma signalStatusOf_eq_none (calls : List ToolCall) :
    signalStatusOf calls = none ↔ calls.filter validSignal = [] := by
  induction calls with
  | nil => simp [signalStatusOf]
  | cons c rest ih =>
    cases hname : isSignalStatusName c.name with
    | false => simp [signalStatusOf, hname, validSignal, List.filter_cons, ih]
    | true =>
      cases hb : (c.status == "blocked") with
      | true => simp [signalStatusOf, hname, hb, validSignal, List.filter_cons]
      | false =>
        cases hd : (c.status == "done") with
        | true => simp [signalStatusOf, hname, hb, hd, validSignal, List.filter_cons]
        | false => simp [signalStatusOf, hname, hb, hd, validSignal, List.filter_cons, ih]

lemma signalStatusOf_mem (calls : List ToolCall) (s : String)
    (h : signalStatusOf calls = some s) : s = "needs_attention" ∨ s = "done" := by
  induction calls with
  | nil => simp [signalStatusOf] at h
  | cons c rest ih =>
    cases hname : isSignalStatusName c.name with
    | false =>
      rw [signalStatusOf, hname] at h
      exact ih (by simpa using h)
    | true =>
      cases hb : (c.status == "blocked") with
      | true =>
        rw [signalStatusOf, hname] at h
        simp [hb] at h
        exact Or.inl h.symm
      | false =>
        cases hd : (c.status == "done") with
        | true =>
          rw [signalStatusOf, hname] at h
          simp [hb, hd] at h
          exact Or.inr h.symm
        | false =>
          rw [signalStatusOf, hname] at h
          simp only [hb, hd, if_true, Bool.false_eq_true, if_false] at h
          exact ih h

/-! ## Lemmas about the processor's collected text -/

/-- The contents of the text events of an inbound stream, in order. -/
def textContents (msgs : List AMsg) : List String :=
  msgs.filterMap (fun m => match m with
    | AMsg.text c => some c
    | _ => none)

lemma processAll_collectedContent (msgs : List AMsg) :
    ∀ p : Proc, (processAll p msgs).1.collectedContent =
      p.collectedContent ++ textContents msgs := by
  induction msgs with
  | nil => intro p; simp [processAll, textContents]
  | cons m rest ih =>
    intro p
    cases m with
    | text c => simp [processAll, processMsg, ih, textContents, List.append_assoc]
    | thinking c sig => simp [processAll, processMsg, ih, textContents]
    | toolUse id name input => simp [processAll, processMsg, ih, textContents]
    | toolInput id input =>
      by_cases h : truthyS id && truthyS input
      · cases id with
        | none => simp [truthyS] at h
        | some s => simp [processAll, processMsg, h, ih, textContents]
      · simp [processAll, processMsg, h, ih, textContents]
    | toolResult tid isErr content => simp [processAll, processMsg, ih, textContents]
    | errorMsg c => simp [processAll, processMsg, ih, textContents]
    | usage i o cost => simp [processAll, processMsg, ih, textContents]
    | statusMsg c sid => simp [processAll, processMsg, ih, textContents]

/-! ## C1 -/

/-- C1 counterexample.  The claim says `append_event` assigns per-thread
sequence IDs that start at 1 and are dense, independently of other threads.
In the code `seq_id` is a single table-wide `AUTOINCREMENT` column: after
appending to thread A, then B, then A again, thread B's only event has
seq 2 (not 1) and thread A's events have seqs 1 and 3 (a gap). -/
theorem addEvent_per_thread_counterexample :
    threadSeqs (appendAll EventStore.empty
      [("A", "text_delta", "x"), ("B", "text_delta", "y"), ("A", "text_delta", "z")]) "B" =
      [2] ∧
    threadSeqs (appendAll EventStore.empty
      [("A", "text_delta", "x"), ("B", "text_delta", "y"), ("A", "text_delta", "z")]) "A" =
      [1, 3] := by
  decide

/-- C1 (amended): `append_event` assigns sequence IDs from a single global
counter, so within every thread they are strictly increasing (monotonic),
and across the whole store they are dense starting at 1; per-thread
sequences need not start at 1 nor be gap-free once other threads
interleave. -/
theorem addEvent_seq_monotone (trace : List (String × String × String)) (tid : String) :
    List.Pairwise (· < ·) (threadSeqs (appendAll EventStore.empty trace) tid) ∧
    allSeqs (appendAll EventStore.empty trace) = List.range' 1 trace.length := by
  constructor
  · have hrows := appendAll_rows_pairwise trace
    have hfil := List.Pairwise.sublist
      (@List.filter_sublist EventRow (fun r => r.threadId == tid) _) hrows
    simp only [threadSeqs]
    exact (List.pairwise_map).mpr hfil
  · have := appendAll_seqIds trace EventStore.empty
    simpa [allSeqs, EventStore.empty] using this

/-! ## C9 -/

/-- C9 counterexample.  The claim says `thread_depth` returns `-1` when the
walk exceeds the 10-hop cycle guard.  On a self-parenting cycle the loop
breaks at `depth > 10` and returns the capped value `11`, never `-1`. -/
theorem getThreadDepth_cycle_counterexample :
    getThreadDepth (fun s => if s = "A" then some (some "A") else none) "A" = 11 ∧
    getThreadDepth (fun s => if s = "A" then some (some "A") else none) "A" ≠ -1 := by
  constructor
  · rfl
  · intro h
    rw [show getThreadDepth (fun s => if s = "A" then some (some "A") else none) "A" = 11
      from rfl] at h
    omega

/-- C9 (amended): `thread_depth` walks the parent chain with a 10-hop cycle
guard; a thread whose chain reaches a root in `d ≤ 10` hops yields `d`, and
when the walk exceeds the guard the result is capped at `11` (the function
never returns `-1`; its value always lies in `[0, 11]`). -/
theorem getThreadDepth_spec :
    (∀ (threads : ThreadTable) (id : String) (n : Nat), ReachesRoot threads id n →
      n ≤ 10 → getThreadDepth threads id = n) ∧
    (∀ (threads : ThreadTable) (id : String),
      0 ≤ getThreadDepth threads id ∧ getThreadDepth threads id ≤ 11) := by
  constructor
  · intro threads id n h hn
    have := getThreadDepthGo_reaches threads h 0 12 (by omega) (by omega)
    simpa [getThreadDepth] using this
  · intro threads id
    exact getThreadDepthGo_bounds threads 12 id 0 (by omega) (by omega)

/-- C9 witness: a two-deep chain `B → A → root` has depth 1. -/
theorem getThreadDepth_spec_witness :
    getThreadDepth
      (fun s => if s = "B" then some (some "A") else if s = "A" then some none else none)
      "B" = 1 :=
  getThreadDepth_spec.1
    (fun s => if s = "B" then some (some "A") else if s = "A" then some none else none)
    "B" 1
    (ReachesRoot.step "B" "A" 0 (by decide)
      (ReachesRoot.here "A" (Or.inr (by decide))))
    (by omega)

/-! ## C4 -/

/-- C4 counterexample.  The claim says installing a pending-prompt slot
fails with an already-pending error when a slot already exists.
`wait_for_answer` has no such path: its first statement unconditionally
assigns `self._pending_questions[thread_id] = (event, None)`, so a second
install on the same thread succeeds and replaces the first slot. -/
theorem installWaitSlot_counterexample :
    (installWaitSlotE (installWaitSlot (fun _ => none) "T1") "T1").isOk = true ∧
    installWaitSlot (installWaitSlot (fun _ => none) "T1") "T1" "T1" = some freshSlot := by
  constructor
  · rfl
  · simp [installWaitSlot]

/-- C4 (amended): `wait_for_answer` installs its slot unconditionally — it
never fails with an already-pending error; an existing slot for the thread
is silently replaced by a fresh one (orphaning the earlier waiter), and
slots of other threads are untouched, so at most one slot per thread still
holds. -/
theorem installWaitSlot_overwrites (m : PendingMap) (tid : String) :
    installWaitSlotE m tid = Except.ok (installWaitSlot m tid) ∧
    installWaitSlot m tid tid = some freshSlot ∧
    ∀ s : String, s ≠ tid → installWaitSlot m tid s = m s := by
  refine ⟨rfl, ?_, ?_⟩
  · simp [installWaitSlot]
  · intro s hs
    simp [installWaitSlot, hs]

/-- C4 witness: installing over an occupied map succeeds, replaces the
occupied slot, and leaves another thread's slot alone. -/
theorem installWaitSlot_overwrites_witness :
    ("T2" : String) ≠ "T1" ∧
    installWaitSlot (fun _ => some ⟨true, none⟩) "T1" "T2" =
      (fun _ => some (⟨true, none⟩ : QSlot)) "T2" :=
  ⟨by decide, (installWaitSlot_overwrites (fun _ => some ⟨true, none⟩) "T1").2.2 "T2" (by decide)⟩

/-! ## C6 -/

/-- C6 counterexample.  The claim gives blanket priority to a `blocked`
SignalStatus call over a `done` one; the code's loop returns at the first
SignalStatus call carrying a recognised status, so with calls
`[done, blocked]` it returns `done` while the claim's rule yields
`needs_attention`. -/
theorem determineStatus_counterexample :
    determineStatus "" [⟨"SignalStatus", "done"⟩, ⟨"SignalStatus", "blocked"⟩] = "done" ∧
    determineStatusClaim "" [⟨"SignalStatus", "done"⟩, ⟨"SignalStatus", "blocked"⟩] =
      "needs_attention" ∧
    determineStatus "" [⟨"SignalStatus", "done"⟩, ⟨"SignalStatus", "blocked"⟩] ≠
      determineStatusClaim "" [⟨"SignalStatus", "done"⟩, ⟨"SignalStatus", "blocked"⟩] := by
  decide

/-- C6 (amended): the final-status classification is decided by the first
SignalStatus tool call carrying a recognised status, in call order
(`blocked` ↦ needs_attention, `done` ↦ done); calls with other statuses are
skipped; only when no such call exists do the text markers apply —
`[BLOCKED]` ↦ needs_attention, else `[DONE]` ↦ done, else active. -/
theorem determineStatus_eq_firstSignal (content : String) (calls : List ToolCall) :
    determineStatus content calls = determineStatusFirstSignal content calls := by
  unfold determineStatus determineStatusFirstSignal
  rw [signalStatusOf_eq_find]
  cases h : calls.find? (fun c =>
      isSignalStatusName c.name && (c.status == "blocked" || c.status == "done")) with
  | none => rfl
  | some c => simp

/-! ## C10 -/

/-- C10 counterexample.  The claim says that for turns with at least one
text event the final content equals the concatenation of all text deltas.
A turn consisting of one empty text delta concatenates to `""`, yet
`get_full_content` stores `"No response generated"`. -/
theorem getFullContent_counterexample :
    getFullContent (processAll Proc.init [AMsg.text ""]).1 = "No response generated" ∧
    String.join (textContents [AMsg.text ""]) = "" ∧
    getFullContent (processAll Proc.init [AMsg.text ""]).1 ≠
      String.join (textContents [AMsg.text ""]) := by
  decide

/-- C10 (amended): the assistant message is seeded with the placeholder
`[streaming...]`; after a turn the stored content is the concatenation of
all text deltas when that concatenation is non-empty (in particular for any
turn with a non-empty text event), and the literal `No response generated`
otherwise (no text events, or only empty deltas); the stored content is
never the empty string. -/
theorem getFullContent_spec (msgs : List AMsg) :
    initialAssistantContent = "[streaming...]" ∧
    getFullContent (processAll Proc.init msgs).1 =
      (if String.join (textContents msgs) == "" then "No response generated"
       else String.join (textContents msgs)) ∧
    getFullContent (processAll Proc.init msgs).1 ≠ "" := by
  have hcc : (processAll Proc.init msgs).1.collectedContent = textContents msgs := by
    simpa [Proc.init] using processAll_collectedContent msgs Proc.init
  refine ⟨rfl, ?_, ?_⟩
  · rw [getFullContent, hcc]
  · rw [getFullContent, hcc]
    cases h : (String.join (textContents msgs) == "") with
    | true => simp
    | false => simpa using h

/-! ## C2 -/

/-- C2 counterexample.  The claim says every terminating sub-thread run —
including cancellation — produces exactly one `subthread_status` event on
the parent.  The `asyncio.CancelledError` branch of `run_thread_for_agent`
sets the child active and broadcasts `stopped` on the child only: a
cancelled child that never called SignalStatus sends its parent zero
`subthread_status` events. -/
theorem parentSubthreadStatus_counterexample :
    parentSubthreadStatusEvents ChildOutcome.cancelled "" [] = 0 ∧
    parentSubthreadStatusEvents ChildOutcome.cancelled "" [] ≠ 1 := by
  decide

/-- C2 (amended): a sub-thread whose run terminates sends its parent
exactly one `subthread_status` event in these cases: success after exactly
one valid SignalStatus call; success with no valid SignalStatus call and no
`[BLOCKED]`/`[DONE]` text marker (the completion escalation); timeout or
retry-exhausted failure with no valid SignalStatus call (the error
escalation).  On cancellation the parent receives only the SignalStatus
broadcasts already sent — zero when the child never signalled. -/
theorem parentSubthreadStatusEvents_spec (text : String) (calls : List ToolCall) :
    (signalBroadcastCount calls = 1 →
      parentSubthreadStatusEvents ChildOutcome.completed text calls = 1) ∧
    (signalBroadcastCount calls = 0 → hasStatusMarker text = false →
      parentSubthreadStatusEvents ChildOutcome.completed text calls = 1) ∧
    (signalBroadcastCount calls = 0 →
      parentSubthreadStatusEvents ChildOutcome.timedOut text calls = 1) ∧
    (signalBroadcastCount calls = 0 →
      parentSubthreadStatusEvents ChildOutcome.failed text calls = 1) ∧
    parentSubthreadStatusEvents ChildOutcome.cancelled text calls =
      signalBroadcastCount calls := by
  refine ⟨?_, ?_, ?_, ?_, ?_⟩
  · intro h1
    have hne : ¬ calls.filter validSignal = [] := by
      intro hnil
      rw [signalBroadcastCount, hnil] at h1
      simp at h1
    have hsome : ∃ s, signalStatusOf calls = some s := by
      cases hs : signalStatusOf calls with
      | none => exact absurd ((signalStatusOf_eq_none calls).mp hs) hne
      | some s => exact ⟨s, rfl⟩
    obtain ⟨s, hs⟩ := hsome
    have hsv := signalStatusOf_mem calls s hs
    have hna : (determineStatus text calls == "active") = false := by
      rw [determineStatus, hs]
      rcases hsv with h | h <;> simp [h]
    simp [parentSubthreadStatusEvents, escalationCount, hna, h1]
  · intro h0 hm
    have hnil : calls.filter validSignal = [] := by
      rw [signalBroadcastCount] at h0
      exact List.length_eq_zero.mp h0
    have hs : signalStatusOf calls = none := (signalStatusOf_eq_none calls).mpr hnil
    have hmB : strContains text "[BLOCKED]" = false := by
      cases h : strContains text "[BLOCKED]" with
      | false => rfl
      | true => rw [hasStatusMarker, h] at hm; simp at hm
    have hmD : strContains text "[DONE]" = false := by
      cases h : strContains text "[DONE]" with
      | false => rfl
      | true => rw [hasStatusMarker, h] at hm; simp at hm
    have hact : determineStatus text calls = "active" := by
      rw [determineStatus, hs]
      simp [hmB, hmD]
    simp [parentSubthreadStatusEvents, escalationCount, hact, signalBroadcastCount, hnil]
  · intro h0
    simp [parentSubthreadStatusEvents, escalationCount, h0]
  · intro h0
    simp [parentSubthreadStatusEvents, escalationCount, h0]
  · simp [parentSubthreadStatusEvents, escalationCount]

/-- C2 witness: a child that completed after a single `SignalStatus(done)`
call yields exactly one parent `subthread_status` event. -/
theorem parentSubthreadStatusEvents_spec_witness :
    signalBroadcastCount [⟨"SignalStatus", "done"⟩] = 1 ∧
    parentSubthreadStatusEvents ChildOutcome.completed "" [⟨"SignalStatus", "done"⟩] = 1 :=
  ⟨by decide, (parentSubthreadStatusEvents_spec "" [⟨"SignalStatus", "done"⟩]).1 (by decide)⟩

/-! ## C7 -/

/-- The inbound stream of the tool-FIFO scenario: tool_use id=A,
tool_use id=B, then two tool_result events with no id. -/
def fifoScenarioMsgs : List AMsg :=
  [AMsg.toolUse (some "A") (some "Bash") none,
   AMsg.toolUse (some "B") (some "Read") none,
   AMsg.toolResult none false none,
   AMsg.toolResult none false none]

/-- C7: with tool_use A then B followed by two id-less tool_results, the
engine broadcasts exactly two `tool_result` events whose `tool_use_id` are
A then B (FIFO order), and after finalisation both tool-use blocks of the
assistant message are complete (and finalisation emits nothing further). -/
theorem toolResult_fifo_scenario :
    ((processAll Proc.init fifoScenarioMsgs).2.filter (fun e => match e with
      | OEvent.toolResultEv _ _ _ => true
      | _ => false)) =
      [OEvent.toolResultEv (some "A") (some false) none,
       OEvent.toolResultEv (some "B") (some false) none] ∧
    (finalizeProc (processAll Proc.init fifoScenarioMsgs).1).1.collectedBlocks =
      [CBlock.toolUse (some "Bash") none (some "A") true false,
       CBlock.toolUse (some "Read") none (some "B") true false] ∧
    (finalizeProc (processAll Proc.init fifoScenarioMsgs).1).2 = [] := by
  decide

/-! ## Lemmas for the pending-tool FIFO invariant -/

lemma toolIds_appendTextBlock (bs : List CBlock) (c : String) :
    toolIds (appendTextBlock bs c) = toolIds bs := by
  cases h : bs.getLast? with
  | none => simp [appendTextBlock, h, toolIds, List.filterMap_append]
  | some b =>
    cases b with
    | text t =>
      have hbs := List.dropLast_append_getLast? _ h
      conv_rhs => rw [← hbs]
      simp [appendTextBlock, h, toolIds, List.filterMap_append]
    | thinking t s => simp [appendTextBlock, h, toolIds, List.filterMap_append]
    | toolUse n i id cp er => simp [appendTextBlock, h, toolIds, List.filterMap_append]

lemma incompleteIds_appendTextBlock (bs : List CBlock) (c : String) :
    incompleteIds (appendTextBlock bs c) = incompleteIds bs := by
  cases h : bs.getLast? with
  | none => simp [appendTextBlock, h, incompleteIds, List.filterMap_append]
  | some b =>
    cases b with
    | text t =>
      have hbs := List.dropLast_append_getLast? _ h
      conv_rhs => rw [← hbs]
      simp [appendTextBlock, h, incompleteIds, List.filterMap_append]
    | thinking t s => simp [appendTextBlock, h, incompleteIds, List.filterMap_append]
    | toolUse n i id cp er => simp [appendTextBlock, h, incompleteIds, List.filterMap_append]

lemma toolIds_appendThinkingBlock (bs : List CBlock) (c : String) (sig : Option String) :
    toolIds (appendThinkingBlock bs c sig) = toolIds bs := by
  cases h : bs.getLast? with
  | none => simp [appendThinkingBlock, h, toolIds, List.filterMap_append]
  | some b =>
    cases b with
    | text t => simp [appendThinkingBlock, h, toolIds, List.filterMap_append]
    | thinking t s =>
      have hbs := List.dropLast_append_getLast? _ h
      conv_rhs => rw [← hbs]
      simp [appendThinkingBlock, h, toolIds, List.filterMap_append]
    | toolUse n i id cp er => simp [appendThinkingBlock, h, toolIds, List.filterMap_append]

lemma incompleteIds_appendThinkingBlock (bs : List CBlock) (c : String)
    (sig : Option String) :
    incompleteIds (appendThinkingBlock bs c sig) = incompleteIds bs := by
  cases h : bs.getLast? with
  | none => simp [appendThinkingBlock, h, incompleteIds, List.filterMap_append]
  | some b =>
    cases b with
    | text t => simp [appendThinkingBlock, h, incompleteIds, List.filterMap_append]
    | thinking t s =>
      have hbs := List.dropLast_append_getLast? _ h
      conv_rhs => rw [← hbs]
      simp [appendThinkingBlock, h, incompleteIds, List.filterMap_append]
    | toolUse n i id cp er => simp [appendThinkingBlock, h, incompleteIds, List.filterMap_append]

lemma toolIds_setFirstInput (bs : List CBlock) (tid : String) (inp : Option String) :
    toolIds (setFirstInput bs tid inp) = toolIds bs := by
  induction bs with
  | nil => rfl
  | cons b rest ih =>
    cases b with
    | text t => simpa [setFirstInput, toolIds] using ih
    | thinking t s => simpa [setFirstInput, toolIds] using ih
    | toolUse n i id cp er =>
      by_cases hid : id = some tid
      · simp [setFirstInput, hid, toolIds]
      · simpa [setFirstInput, hid, toolIds] using ih

lemma incompleteIds_setFirstInput (bs : List CBlock) (tid : String) (inp : Option String) :
    incompleteIds (setFirstInput bs tid inp) = incompleteIds bs := by
  induction bs with
  | nil => rfl
  | cons b rest ih =>
    cases b with
    | text t => simpa [setFirstInput, incompleteIds] using ih
    | thinking t s => simpa [setFirstInput, incompleteIds] using ih
    | toolUse n i id cp er =>
      by_cases hid : id = some tid
      · cases cp <;> simp [setFirstInput, hid, incompleteIds]
      · cases cp <;> simpa [setFirstInput, hid, incompleteIds] using ih

lemma toolIds_markFirstComplete (bs : List CBlock) (tid : String) (err : Bool) :
    toolIds (markFirstComplete bs tid err) = toolIds bs := by
  induction bs with
  | nil => rfl
  | cons b rest ih =>
    cases b with
    | text t => simpa [markFirstComplete, toolIds] using ih
    | thinking t s => simpa [markFirstComplete, toolIds] using ih
    | toolUse n i id cp er =>
      by_cases hid : id = some tid
      · simp [markFirstComplete, hid, toolIds]
      · simpa [markFirstComplete, hid, toolIds] using ih

lemma toolIds_cons_text (t : String) (rest : List CBlock) :
    toolIds (CBlock.text t :: rest) = toolIds rest := rfl

lemma toolIds_cons_thinking (t : String) (sg : Option String) (rest : List CBlock) :
    toolIds (CBlock.thinking t sg :: rest) = toolIds rest := rfl

lemma toolIds_cons_tool (n i : Option String) (id : Option String) (cp er : Bool)
    (rest : List CBlock) :
    toolIds (CBlock.toolUse n i id cp er :: rest) = id :: toolIds rest := rfl

lemma incompleteIds_cons_text (t : String) (rest : List CBlock) :
    incompleteIds (CBlock.text t :: rest) = incompleteIds rest := rfl

lemma incompleteIds_cons_thinking (t : String) (sg : Option String) (rest : List CBlock) :
    incompleteIds (CBlock.thinking t sg :: rest) = incompleteIds rest := rfl

lemma incompleteIds_cons_tool_false (n i : Option String) (id : Option String) (er : Bool)
    (rest : List CBlock) :
    incompleteIds (CBlock.toolUse n i id false er :: rest) = id :: incompleteIds rest := rfl

lemma incompleteIds_cons_tool_true (n i : Option String) (id : Option String) (er : Bool)
    (rest : List CBlock) :
    incompleteIds (CBlock.toolUse n i id true er :: rest) = incompleteIds rest := rfl

lemma incompleteIds_subset_toolIds (bs : List CBlock) :
    ∀ x ∈ incompleteIds bs, x ∈ toolIds bs := by
  induction bs with
  | nil => intro x hx; exact absurd hx (by simp [incompleteIds])
  | cons b rest ih =>
    cases b with
    | text t =>
      intro x hx
      rw [incompleteIds_cons_text] at hx
      rw [toolIds_cons_text]
      exact ih x hx
    | thinking t s =>
      intro x hx
      rw [incompleteIds_cons_thinking] at hx
      rw [toolIds_cons_thinking]
      exact ih x hx
    | toolUse n i id cp er =>
      cases cp with
      | false =>
        intro x hx
        rw [incompleteIds_cons_tool_false] at hx
        rw [toolIds_cons_tool]
        rcases List.mem_cons.mp hx with h | h
        · exact List.mem_cons.mpr (Or.inl h)
        · exact List.mem_cons.mpr (Or.inr (ih x h))
      | true =>
        intro x hx
        rw [incompleteIds_cons_tool_true] at hx
        rw [toolIds_cons_tool]
        exact List.mem_cons.mpr (Or.inr (ih x hx))

lemma incompleteIds_markFirstComplete_mem (bs : List CBlock) (s : String) (err : Bool)
    (hnd : (toolIds bs).Nodup) (hmem : some s ∈ incompleteIds bs) :
    incompleteIds (markFirstComplete bs s err) = (incompleteIds bs).erase (some s) := by
  induction bs with
  | nil => exact absurd hmem (by simp [incompleteIds])
  | cons b rest ih =>
    cases b with
    | text t =>
      rw [toolIds_cons_text] at hnd
      rw [incompleteIds_cons_text] at hmem ⊢
      rw [show markFirstComplete (CBlock.text t :: rest) s err =
        CBlock.text t :: markFirstComplete rest s err from rfl]
      rw [incompleteIds_cons_text]
      exact ih hnd hmem
    | thinking t sg =>
      rw [toolIds_cons_thinking] at hnd
      rw [incompleteIds_cons_thinking] at hmem ⊢
      rw [show markFirstComplete (CBlock.thinking t sg :: rest) s err =
        CBlock.thinking t sg :: markFirstComplete rest s err from rfl]
      rw [incompleteIds_cons_thinking]
      exact ih hnd hmem
    | toolUse n i id cp er =>
      rw [toolIds_cons_tool] at hnd
      have hnd1 : id ∉ toolIds rest := (List.nodup_cons.mp hnd).1
      have hnd2 : (toolIds rest).Nodup := (List.nodup_cons.mp hnd).2
      by_cases hid : id = some s
      · cases cp with
        | false =>
          rw [show markFirstComplete (CBlock.toolUse n i id false er :: rest) s err =
            CBlock.toolUse n i id true (er || err) :: rest from by
              simp [markFirstComplete, hid]]
          rw [incompleteIds_cons_tool_true, incompleteIds_cons_tool_false, hid,
            List.erase_cons_head]
        | true =>
          rw [incompleteIds_cons_tool_true] at hmem
          exact absurd (incompleteIds_subset_toolIds rest _ hmem) (hid ▸ hnd1)
      · have hstep : markFirstComplete (CBlock.toolUse n i id cp er :: rest) s err =
            CBlock.toolUse n i id cp er :: markFirstComplete rest s err := by
          simp [markFirstComplete, hid]
        cases cp with
        | false =>
          rw [incompleteIds_cons_tool_false] at hmem
          have hmem2 : some s ∈ incompleteIds rest := by
            rcases List.mem_cons.mp hmem with h | h
            · exact absurd h (fun hh => hid hh.symm)
            · exact h
          rw [hstep, incompleteIds_cons_tool_false, incompleteIds_cons_tool_false]
          rw [List.erase_cons_tail (by simpa using hid)]
          rw [ih hnd2 hmem2]
        | true =>
          rw [incompleteIds_cons_tool_true] at hmem
          rw [hstep, incompleteIds_cons_tool_true, incompleteIds_cons_tool_true]
          exact ih hnd2 hmem

lemma incompleteIds_markFirstComplete_notmem (bs : List CBlock) (s : String) (err : Bool)
    (hmem : some s ∉ incompleteIds bs) :
    incompleteIds (markFirstComplete bs s err) = incompleteIds bs := by
  induction bs with
  | nil => rfl
  | cons b rest ih =>
    cases b with
    | text t =>
      rw [incompleteIds_cons_text] at hmem
      rw [show markFirstComplete (CBlock.text t :: rest) s err =
        CBlock.text t :: markFirstComplete rest s err from rfl]
      rw [incompleteIds_cons_text, incompleteIds_cons_text]
      exact ih hmem
    | thinking t sg =>
      rw [incompleteIds_cons_thinking] at hmem
      rw [show markFirstComplete (CBlock.thinking t sg :: rest) s err =
        CBlock.thinking t sg :: markFirstComplete rest s err from rfl]
      rw [incompleteIds_cons_thinking, incompleteIds_cons_thinking]
      exact ih hmem
    | toolUse n i id cp er =>
      by_cases hid : id = some s
      · cases cp with
        | false =>
          rw [incompleteIds_cons_tool_false] at hmem
          exact absurd (List.mem_cons.mpr (Or.inl hid.symm)) hmem
        | true =>
          rw [show markFirstComplete (CBlock.toolUse n i id true er :: rest) s err =
            CBlock.toolUse n i id true (er || err) :: rest from by
              simp [markFirstComplete, hid]]
          rw [incompleteIds_cons_tool_true, incompleteIds_cons_tool_true]
      · have hstep : markFirstComplete (CBlock.toolUse n i id cp er :: rest) s err =
            CBlock.toolUse n i id cp er :: markFirstComplete rest s err := by
          simp [markFirstComplete, hid]
        cases cp with
        | false =>
          rw [incompleteIds_cons_tool_false] at hmem
          have hmem2 : some s ∉ incompleteIds rest := fun hc =>
            hmem (List.mem_cons.mpr (Or.inr hc))
          rw [hstep, incompleteIds_cons_tool_false, incompleteIds_cons_tool_false,
            ih hmem2]
        | true =>
          rw [incompleteIds_cons_tool_true] at hmem
          rw [hstep, incompleteIds_cons_tool_true, incompleteIds_cons_tool_true,
            ih hmem]

lemma map_some_erase (l : List String) (s : String) :
    (l.erase s).map some = (l.map some).erase (some s) := by
  induction l with
  | nil => rfl
  | cons a rest ih =>
    by_cases h : a = s
    · subst h
      simp
    · rw [List.erase_cons_tail (by simpa using h)]
      rw [List.map_cons, List.map_cons]
      rw [List.erase_cons_tail (by simpa using h)]
      rw [ih]

lemma length_filter_isIncompleteTool (bs : List CBlock) :
    (bs.filter isIncompleteTool).length = (incompleteIds bs).length := by
  induction bs with
  | nil => rfl
  | cons b rest ih =>
    cases b with
    | text t => simpa [isIncompleteTool, incompleteIds, List.filter_cons] using ih
    | thinking t s => simpa [isIncompleteTool, incompleteIds, List.filter_cons] using ih
    | toolUse n i id cp er =>
      cases cp <;>
        simpa [isIncompleteTool, incompleteIds, List.filter_cons] using ih

/-- Invariant of `MessageStreamProcessor`: when every tool_use event
carries a truthy id that is fresh (no duplicates), the ids of the
uncompleted tool-use blocks are exactly the pending FIFO, in order. -/
lemma processAll_pending_inv (msgs : List AMsg) :
    ∀ p : Proc,
      (toolIds p.collectedBlocks ++ toolUseIdsOf msgs).Nodup →
      (∀ o ∈ toolUseIdsOf msgs, truthyS o = true) →
      incompleteIds p.collectedBlocks = p.pendingToolIds.map some →
      (∀ s ∈ p.pendingToolIds, s ≠ "") →
      incompleteIds (processAll p msgs).1.collectedBlocks =
        (processAll p msgs).1.pendingToolIds.map some := by
  induction msgs with
  | nil =>
    intro p _ _ hinv _
    simpa [processAll] using hinv
  | cons m rest ih =>
    intro p hnd htr hinv hpt
    rw [show (processAll p (m :: rest)).1 = (processAll (processMsg p m).1 rest).1 from rfl]
    cases m with
    | text c =>
      have hstate : (processMsg p (AMsg.text c)).1 =
          { p with collectedContent := p.collectedContent ++ [c],
                   collectedBlocks := appendTextBlock p.collectedBlocks c } := rfl
      rw [hstate]
      apply ih
      · simpa [toolIds_appendTextBlock] using hnd
      · exact htr
      · simpa [incompleteIds_appendTextBlock] using hinv
      · exact hpt
    | thinking c sig =>
      have hstate : (processMsg p (AMsg.thinking c sig)).1 =
          { p with collectedBlocks := appendThinkingBlock p.collectedBlocks c sig } := rfl
      rw [hstate]
      apply ih
      · simpa [toolIds_appendThinkingBlock] using hnd
      · exact htr
      · simpa [incompleteIds_appendThinkingBlock] using hinv
      · exact hpt
    | toolUse id name input =>
      have hid : truthyS id = true := htr id (by simp [toolUseIdsOf])
      cases id with
      | none => simp [truthyS] at hid
      | some s =>
        have hs : (s == "") = false := by
          simpa [truthyS] using hid
        have hs2 : s ≠ "" := by simpa using hs
        have hstate : (processMsg p (AMsg.toolUse (some s) name input)).1 =
            { p with
                pendingToolIds := p.pendingToolIds ++ [s],
                collectedBlocks := p.collectedBlocks ++
                  [CBlock.toolUse name input (some s) false false] } := by
          have h0 : (processMsg p (AMsg.toolUse (some s) name input)).1 =
              { p with
                  pendingToolIds :=
                    if s == "" then p.pendingToolIds else p.pendingToolIds ++ [s],
                  collectedBlocks := p.collectedBlocks ++
                    [CBlock.toolUse name input (some s) false false] } := rfl
          rw [h0, if_neg (by simp [hs])]
        rw [hstate]
        have hids : toolUseIdsOf (AMsg.toolUse (some s) name input :: rest) =
            some s :: toolUseIdsOf rest := rfl
        apply ih
        · have : toolIds (p.collectedBlocks ++
              [CBlock.toolUse name input (some s) false false]) =
              toolIds p.collectedBlocks ++ [some s] := by
            simp [toolIds, List.filterMap_append]
          rw [this]
          rw [hids] at hnd
          rw [List.append_cons] at hnd
          exact hnd
        · intro o ho
          exact htr o (by rw [hids]; exact List.mem_cons.mpr (Or.inr ho))
        · have : incompleteIds (p.collectedBlocks ++
              [CBlock.toolUse name input (some s) false false]) =
              incompleteIds p.collectedBlocks ++ [some s] := by
            simp [incompleteIds, List.filterMap_append]
          rw [this, hinv]
          simp
        · intro x hx
          rcases List.mem_append.mp hx with h | h
          · exact hpt x h
          · rw [List.mem_singleton.mp h]
            exact hs2
    | toolInput id input =>
      have hblocks : toolIds (processMsg p (AMsg.toolInput id input)).1.collectedBlocks =
            toolIds p.collectedBlocks ∧
          incompleteIds (processMsg p (AMsg.toolInput id input)).1.collectedBlocks =
            incompleteIds p.collectedBlocks ∧
          (processMsg p (AMsg.toolInput id input)).1.pendingToolIds = p.pendingToolIds := by
        cases hc : truthyS id && truthyS input with
        | false => simp [processMsg, hc]
        | true =>
          cases id with
          | none => simp [truthyS] at hc
          | some s =>
            simp [processMsg, hc, toolIds_setFirstInput, incompleteIds_setFirstInput]
      obtain ⟨hb1, hb2, hb3⟩ := hblocks
      apply ih
      · rw [hb1]; exact hnd
      · exact htr
      · rw [hb2, hb3]; exact hinv
      · rw [hb3]; exact hpt
    | toolResult tid0 isErr content =>
      have hndL : (toolIds p.collectedBlocks).Nodup :=
        (List.nodup_append.mp hnd).1
      cases htv : truthyS tid0 with
      | true =>
        cases tid0 with
        | none => simp [truthyS] at htv
        | some s =>
          have hs : (s == "") = false := by simpa [truthyS] using htv
          have hs2 : ¬ s = "" := by simpa using hs
          by_cases hpend : s ∈ p.pendingToolIds
          · have hstate : (processMsg p (AMsg.toolResult (some s) isErr content)).1 =
                { p with
                    collectedBlocks := markFirstComplete p.collectedBlocks s isErr,
                    pendingToolIds := p.pendingToolIds.erase s } := by
              simp [processMsg, truthyS, hs, hs2, hpend]
            rw [hstate]
            have hmem : some s ∈ incompleteIds p.collectedBlocks := by
              rw [hinv]
              exact List.mem_map.mpr ⟨s, hpend, rfl⟩
            apply ih
            · simpa [toolIds_markFirstComplete] using hnd
            · exact htr
            · rw [incompleteIds_markFirstComplete_mem p.collectedBlocks s isErr hndL hmem]
              rw [hinv, map_some_erase]
            · intro x hx
              exact hpt x (List.mem_of_mem_erase hx)
          · have hstate : (processMsg p (AMsg.toolResult (some s) isErr content)).1 =
                { p with
                    collectedBlocks := markFirstComplete p.collectedBlocks s isErr } := by
              simp [processMsg, truthyS, hs, hs2, hpend]
            rw [hstate]
            have hmem : some s ∉ incompleteIds p.collectedBlocks := by
              rw [hinv]
              intro hc
              rcases List.mem_map.mp hc with ⟨x, hx, hxe⟩
              exact hpend ((Option.some.inj hxe) ▸ hx)
            apply ih
            · simpa [toolIds_markFirstComplete] using hnd
            · exact htr
            · rw [incompleteIds_markFirstComplete_notmem p.collectedBlocks s isErr hmem]
              exact hinv
            · exact hpt
      | false =>
        cases hp : p.pendingToolIds with
        | nil =>
          have hblocks :
              (processMsg p (AMsg.toolResult tid0 isErr content)).1.collectedBlocks =
                p.collectedBlocks ∧
              (processMsg p (AMsg.toolResult tid0 isErr content)).1.pendingToolIds = [] := by
            cases tid0 with
            | none => simp [processMsg, truthyS, hp]
            | some s =>
              have hs : (s == "") = true := by simpa [truthyS] using htv
              have hsp : s = "" := by simpa using hs
              simp [processMsg, truthyS, hs, hsp, hp]
          obtain ⟨hb1, hb2⟩ := hblocks
          apply ih
          · rw [hb1]; exact hnd
          · exact htr
          · rw [hb1, hb2, hinv, hp]
          · rw [hb2]; intro x hx; exact absurd hx (List.not_mem_nil x)
        | cons h t =>
          have hh : h ≠ "" := hpt h (hp ▸ List.mem_cons_self h t)
          have hhs : (h == "") = false := by simpa using hh
          have hstate : (processMsg p (AMsg.toolResult tid0 isErr content)).1 =
              { p with
                  collectedBlocks := markFirstComplete p.collectedBlocks h isErr,
                  pendingToolIds := t } := by
            cases tid0 with
            | none => simp [processMsg, truthyS, hp, hhs, hh]
            | some s =>
              have hs : (s == "") = true := by simpa [truthyS] using htv
              have hsp : s = "" := by simpa using hs
              simp [processMsg, truthyS, hs, hsp, hp, hhs, hh]
          rw [hstate]
          have hinv2 : incompleteIds p.collectedBlocks = some h :: t.map some := by
            rw [hinv, hp, List.map_cons]
          have hmem : some h ∈ incompleteIds p.collectedBlocks := by
            rw [hinv2]; exact List.mem_cons_self _ _
          apply ih
          · simpa [toolIds_markFirstComplete] using hnd
          · exact htr
          · rw [incompleteIds_markFirstComplete_mem p.collectedBlocks h isErr hndL hmem]
            rw [hinv2, List.erase_cons_head]
          · intro x hx
            exact hpt x (hp ▸ List.mem_cons.mpr (Or.inr hx))
    | errorMsg c =>
      exact ih p (by simpa using hnd) htr hinv hpt
    | usage i o cost =>
      exact ih p (by simpa using hnd) htr hinv hpt
    | statusMsg c sid =>
      have hstate : (processMsg p (AMsg.statusMsg c sid)).1 =
          { p with finalStatus := c, finalSessionId := sid } := rfl
      rw [hstate]
      apply ih
      · simpa using hnd
      · exact htr
      · exact hinv
      · exact hpt

/-! ## Lemmas for the SendToThread rate limit -/

lemma rlRun_subset : ∀ (times l : List Rat) (t : Rat), t ∈ rlRun l times → t ∈ times := by
  intro times
  induction times with
  | nil => intro l t h; exact absurd h (by simp [rlRun])
  | cons t0 rest ih =>
    intro l t h
    unfold rlRun at h
    rcases List.mem_append.mp h with h | h
    · by_cases hb : (rlStep l t0).2
      · simp [hb] at h
        exact List.mem_cons.mpr (Or.inl h)
      · simp [hb] at h
    · exact List.mem_cons.mpr (Or.inr (ih _ t h))

/-- The key window bound: along a time-sorted trace, the accepted calls
inside a window `(a, a + 60]` plus the initial stamps above `a` never
exceed the limit. -/
lemma rlRun_window_bound : ∀ (times l : List Rat) (a : Rat),
    List.Pairwise (· ≤ ·) times → l.length ≤ messageRateLimit →
    ((rlRun l times).filter
        (fun t => decide (a < t) && decide (t ≤ a + messageWindow))).length +
      (l.filter (fun ts => decide (a < ts))).length ≤ messageRateLimit := by
  intro times
  induction times with
  | nil =>
    intro l a _ hl
    simpa [rlRun] using le_trans (List.length_filter_le _ _) hl
  | cons t rest ih =>
    intro l a hsorted hl
    have hall := (List.pairwise_cons.mp hsorted).1
    have hsrest := (List.pairwise_cons.mp hsorted).2
    by_cases hta : t ≤ a + messageWindow
    · have hfeq : (pruneStamps t l).filter (fun ts => decide (a < ts)) =
          l.filter (fun ts => decide (a < ts)) := by
        unfold pruneStamps
        rw [List.filter_filter]
        apply List.filter_congr
        intro x _
        by_cases hax : a < x
        · have hw : t - x < messageWindow := by linarith
          simp [hax, hw]
        · simp [hax]
      by_cases hk : messageRateLimit ≤ (pruneStamps t l).length
      · have hrun : rlRun l (t :: rest) = rlRun (pruneStamps t l) rest := by
          simp [rlRun, rlStep, hk]
        rw [hrun]
        have hkl : (pruneStamps t l).length ≤ messageRateLimit :=
          le_trans (List.length_filter_le _ _) hl
        have hIH := ih (pruneStamps t l) a hsrest hkl
        rw [hfeq] at hIH
        exact hIH
      · have hrun : rlRun l (t :: rest) = t :: rlRun (pruneStamps t l ++ [t]) rest := by
          simp [rlRun, rlStep, hk]
        rw [hrun]
        have hlen2 : (pruneStamps t l ++ [t]).length ≤ messageRateLimit := by
          rw [List.length_append]
          simp only [List.length_singleton]
          omega
        have hIH := ih (pruneStamps t l ++ [t]) a hsrest hlen2
        rw [List.filter_append, hfeq] at hIH
        by_cases hat : a < t
        · rw [List.filter_cons_of_pos (by simp [hat, hta])]
          rw [show ([t].filter (fun ts => decide (a < ts))) = [t] from by simp [hat]] at hIH
          rw [List.length_append] at hIH
          simp only [List.length_cons, List.length_singleton] at hIH ⊢
          omega
        · rw [List.filter_cons_of_neg (by simp [hat])]
          rw [show ([t].filter (fun ts => decide (a < ts))) = [] from by simp [hat]] at hIH
          simpa using hIH
    · have hnil : (rlRun l (t :: rest)).filter
          (fun t => decide (a < t) && decide (t ≤ a + messageWindow)) = [] := by
        apply List.filter_eq_nil_iff.mpr
        intro x hx
        have hxin : x ∈ t :: rest := rlRun_subset _ _ _ hx
        have htx : t ≤ x := by
          rcases List.mem_cons.mp hxin with h | h
          · exact h ▸ le_refl t
          · exact hall x h
        have hxa : ¬ x ≤ a + messageWindow := by
          push_neg at hta
          linarith
        simp [hxa]
      rw [hnil]
      simpa using le_trans (List.length_filter_le _ _) hl

/-- The dict in `check_rate_limit` is keyed per source: one source's
accepted calls in a mixed trace equal the single-source run over that
source's call times. -/
lemma rlRunD_proj : ∀ (trace : List (String × Rat)) (st : String → List Rat) (s : String),
    ((rlRunD st trace).filter (fun p => p.1 == s)).map Prod.snd =
      rlRun (st s) ((trace.filter (fun p => p.1 == s)).map Prod.snd) := by
  intro trace
  induction trace with
  | nil => intro st s; rfl
  | cons e rest ih =>
    intro st s
    obtain ⟨src, t⟩ := e
    by_cases hs : src = s
    · subst hs
      by_cases hk : messageRateLimit ≤ (pruneStamps t (st src)).length
      · have hrunD : rlRunD st ((src, t) :: rest) =
            rlRunD (fun s2 => if s2 = src then pruneStamps t (st src) else st s2) rest := by
          simp [rlRunD, rlStepD, hk]
        have hfil : (((src, t) :: rest).filter (fun p => p.1 == src)).map Prod.snd
            = t :: (rest.filter (fun p => p.1 == src)).map Prod.snd := by
          simp [List.filter_cons]
        rw [hrunD, hfil]
        rw [show rlRun (st src) (t :: (rest.filter (fun p => p.1 == src)).map Prod.snd) =
          rlRun (pruneStamps t (st src))
            ((rest.filter (fun p => p.1 == src)).map Prod.snd) from by
            simp [rlRun, rlStep, hk]]
        rw [ih]
        simp
      · have hrunD : rlRunD st ((src, t) :: rest) = (src, t) ::
            rlRunD (fun s2 => if s2 = src then pruneStamps t (st src) ++ [t] else st s2)
              rest := by
          simp [rlRunD, rlStepD, hk]
        have hfil : (((src, t) :: rest).filter (fun p => p.1 == src)).map Prod.snd
            = t :: (rest.filter (fun p => p.1 == src)).map Prod.snd := by
          simp [List.filter_cons]
        rw [hrunD, hfil]
        rw [show rlRun (st src) (t :: (rest.filter (fun p => p.1 == src)).map Prod.snd) =
          t :: rlRun (pruneStamps t (st src) ++ [t])
            ((rest.filter (fun p => p.1 == src)).map Prod.snd) from by
            simp [rlRun, rlStep, hk]]
        rw [List.filter_cons_of_pos (by simp)]
        rw [List.map_cons]
        rw [ih]
        simp
    · have hsneq : ((src, t).1 == s) = false := by simpa using hs
      have hstep : ∀ b : Bool,
          ((if b then [(src, t)] else []).filter (fun p => p.1 == s)) = [] := by
        intro b
        cases b <;> simp [hsneq]
      have hnew : ∀ v : List Rat,
          (fun s2 => if s2 = src then v else st s2) s = st s := by
        intro v
        have hns : ¬ s = src := fun hc => hs hc.symm
        simp [hns]
      unfold rlRunD
      rw [List.filter_append, hstep, List.nil_append]
      rw [show (((src, t) :: rest).filter (fun p => p.1 == s)) =
        rest.filter (fun p => p.1 == s) from by simp [List.filter_cons, hsneq]]
      rw [ih]
      congr 1
      by_cases hk : messageRateLimit ≤ (pruneStamps t (st src)).length <;>
        simp [rlStepD, hk, hnew]

/-! ## C8 -/

/-- C8: for every source thread and every rolling 60-second window
`(a, a + 60]`, `SendToThread` accepts at most 5 messages from that source
(along any globally time-sorted call trace, with sources keyed
independently in the timestamp dict), and any attempt made while five
acceptances remain inside the window is rejected with the rate-limit
error message. -/
theorem sendToThread_rate_limit (trace : List (String × Rat)) (s : String) (a : Rat)
    (hsorted : List.Pairwise (· ≤ ·) (trace.map Prod.snd)) :
    ((acceptedFor s trace).filter
        (fun t => decide (a < t) && decide (t ≤ a + messageWindow))).length ≤
      messageRateLimit ∧
    ∀ (st : String → List Rat) (src : String) (now : Rat),
      messageRateLimit ≤ (pruneStamps now (st src)).length →
      (rlStepD st src now).2 =
        (false, "Rate limit exceeded: max 5 messages per minute") := by
  constructor
  · rw [acceptedFor, rlRunD_proj]
    have hsub : ((trace.filter (fun p => p.1 == s)).map Prod.snd).Sublist
        (trace.map Prod.snd) :=
      List.Sublist.map Prod.snd (List.filter_sublist _)
    have hsorted2 := List.Pairwise.sublist hsub hsorted
    have hb := rlRun_window_bound ((trace.filter (fun p => p.1 == s)).map Prod.snd) [] a
      hsorted2 (by simp [messageRateLimit])
    simpa using hb
  · intro st src now hk
    simp [rlStepD, hk]

/-- C8 witness: six calls of one source at times 0..5 inside one window;
five are accepted, the bound holds, and the sixth call is rejected. -/
theorem sendToThread_rate_limit_witness :
    List.Pairwise (· ≤ ·)
      (([(("S" : String), (0 : Rat)), ("S", 1), ("S", 2), ("S", 3), ("S", 4),
        ("S", 5)]).map Prod.snd) ∧
    ((acceptedFor "S"
        [(("S" : String), (0 : Rat)), ("S", 1), ("S", 2), ("S", 3), ("S", 4),
         ("S", 5)]).filter
        (fun t => decide ((0 : Rat) < t) && decide (t ≤ 0 + messageWindow))).length ≤
      messageRateLimit :=
  ⟨by decide,
    (sendToThread_rate_limit
      [(("S" : String), (0 : Rat)), ("S", 1), ("S", 2), ("S", 3), ("S", 4), ("S", 5)]
      "S" 0 (by decide)).1⟩

/-! ## C5 -/

/-- C5 counterexample.  The claim quantifies over every sequence of inbound
driver events.  A tool_use event whose metadata carries no id appends an
uncompleted tool-use block but (because of the `if tool_id:` guard) pushes
nothing onto the pending FIFO: one incomplete block versus an empty
queue. -/
theorem pendingTool_invariant_counterexample :
    ((processAll Proc.init [AMsg.toolUse none none none]).1.collectedBlocks.filter
      isIncompleteTool).length = 1 ∧
    (processAll Proc.init [AMsg.toolUse none none none]).1.pendingToolIds.length = 0 := by
  decide

/-- C5 (amended): for every inbound event sequence in which each tool_use
event carries a truthy (non-null, non-empty) id and those ids are pairwise
distinct, the number of uncompleted tool-use blocks in the in-flight
assistant message equals the length of the pending-tool FIFO at every
point of the stream. -/
theorem pendingTool_fifo_invariant (msgs : List AMsg)
    (hnd : (toolUseIdsOf msgs).Nodup)
    (htr : ∀ o ∈ toolUseIdsOf msgs, truthyS o = true) :
    ((processAll Proc.init msgs).1.collectedBlocks.filter isIncompleteTool).length =
      (processAll Proc.init msgs).1.pendingToolIds.length := by
  have h := processAll_pending_inv msgs Proc.init
    (by simpa [Proc.init, toolIds] using hnd) htr
    (by simp [Proc.init, incompleteIds])
    (by simp [Proc.init])
  rw [length_filter_isIncompleteTool, h, List.length_map]

/-- C5 witness: a stream with two distinct, truthy tool ids where one tool
result arrives satisfies the invariant. -/
theorem pendingTool_fifo_invariant_witness :
    (toolUseIdsOf [AMsg.toolUse (some "A") none none, AMsg.toolUse (some "B") none none,
      AMsg.toolResult none false none]).Nodup ∧
    ((processAll Proc.init [AMsg.toolUse (some "A") none none,
      AMsg.toolUse (some "B") none none,
      AMsg.toolResult none false none]).1.collectedBlocks.filter
        isIncompleteTool).length =
      (processAll Proc.init [AMsg.toolUse (some "A") none none,
        AMsg.toolUse (some "B") none none,
        AMsg.toolResult none false none]).1.pendingToolIds.length :=
  ⟨by decide,
    pendingTool_fifo_invariant
      [AMsg.toolUse (some "A") none none, AMsg.toolUse (some "B") none none,
       AMsg.toolResult none false none]
      (by decide) (by decide)⟩

/-! ## C3 -/

/-- A driver that crashes after emitting "partial" on attempt 0 and
completes with different text on attempt 1. -/
def crashThenOkDriver : Nat → AttemptRun := fun n =>
  if n = 0 then ⟨[AMsg.text "partial"], DriverOutcome.err "boom"⟩
  else ⟨[AMsg.text "rest of the task"], DriverOutcome.ok⟩

/-- C3 counterexample.  The claim says that after a crash following partial
text, the final assistant message's text begins with that partial text.
Each pass of the retry loop constructs a fresh `MessageStreamProcessor`,
which inserts a fresh placeholder assistant message; the partial text stays
in the crashed attempt's own message, and the final assistant message holds
only the retry's output — it does not begin with "partial". -/
theorem runAgentWithRetry_counterexample :
    finalAssistantContent (runAgentWithRetry crashThenOkDriver "go" false) =
      some "rest of the task" ∧
    "partial".toList.isPrefixOf "rest of the task".toList = false ∧
    (runAgentWithRetry crashThenOkDriver "go" false).trace.dbMessages =
      [("assistant", "partial"), ("system", retryNote "boom" 1),
       ("assistant", "rest of the task")] := by
  decide

/-- C3 (amended): when the driver fails with a non-timeout,
non-cancellation error on the first attempt (MAX_RETRIES = 2 further
attempts remain), the engine persists the accumulated content into that
attempt's assistant message, waits RETRY_DELAY = 3 s, persists a system
message announcing automatic retry with session resumption (attempt 2),
re-invokes the driver with the continuation prompt and with images
dropped; the retry's output lands in a new assistant message, so the final
assistant message holds exactly the retry's output while the partial text
survives in the previous assistant message. -/
theorem runAgentWithRetry_resume_spec (driver : Nat → AttemptRun) (userMsg : String)
    (hasImages : Bool) (e : String) (evs0 evs1 : List AMsg)
    (h0 : driver 0 = ⟨evs0, DriverOutcome.err e⟩)
    (h1 : driver 1 = ⟨evs1, DriverOutcome.ok⟩) :
    runAgentWithRetry driver userMsg hasImages =
      RetryResult.success (finalizeProc (processAll Proc.init evs1).1).1
        ⟨[(userMsg, hasImages), (continuationMessage, false)],
         [RETRY_DELAY_SECONDS],
         [("assistant", getFullContent (processAll Proc.init evs0).1),
          ("system", retryNote e 1),
          ("assistant", getFullContent (finalizeProc (processAll Proc.init evs1).1).1)]⟩ ∧
    retryNote e 1 = "[system] Previous execution was interrupted (" ++ e ++
      "). Automatically retrying with session resumption (attempt 2)." ∧
    RETRY_DELAY_SECONDS = 3 ∧
    continuationMessage =
      "Your previous execution was interrupted. Please continue where you left off and complete the task." := by
  refine ⟨?_, ?_, rfl, rfl⟩
  · rw [runAgentWithRetry]
    rw [show MAX_AGENT_RETRIES + 1 = 2 + 1 from rfl]
    rw [runRetryGo, h0]
    simp only [MAX_AGENT_RETRIES]
    norm_num
    rw [show (2 : Nat) = 1 + 1 from rfl, runRetryGo, h1]
    norm_num
  · unfold retryNote
    rw [String.append_assoc, String.append_assoc]
    congr 1

/-- C3 witness: the crash-then-complete driver follows the amended
behaviour. -/
theorem runAgentWithRetry_resume_spec_witness :
    crashThenOkDriver 0 = ⟨[AMsg.text "partial"], DriverOutcome.err "boom"⟩ ∧
    runAgentWithRetry crashThenOkDriver "go" false =
      RetryResult.success
        (finalizeProc (processAll Proc.init [AMsg.text "rest of the task"]).1).1
        ⟨[("go", false), (continuationMessage, false)],
         [RETRY_DELAY_SECONDS],
         [("assistant", getFullContent (processAll Proc.init [AMsg.text "partial"]).1),
          ("system", retryNote "boom" 1),
          ("assistant",
            getFullContent
              (finalizeProc (processAll Proc.init [AMsg.text "rest of the task"]).1).1)]⟩ :=
  ⟨rfl,
    (runAgentWithRetry_resume_spec crashThenOkDriver "go" false "boom"
      [AMsg.text "partial"] [AMsg.text "rest of the task"] rfl rfl).1⟩

end Mainthread
